import Mathlib

/-!
Verification of the `360Agent` repository.

The repository's only source file is `setup.py`, a script that creates an
empty directory/file skeleton for an intended Node.js messaging-bot project.
The `SetupPy` namespace is a shallow embedding of that script as a
transformer of a modelled filesystem.

The specification additionally describes the conversation engine that the
file layout implies (Field Schema, Field Tracker, Completion Checker,
Conversation Manager).  That engine has no implementation in the sources,
so the `Engine` namespace models it from the specification text; every
definition there carries a doc comment starting `Modelled from the spec:`.
-/

namespace SetupPy

/-- A filesystem path, as its list of `/`-separated components. -/
abbrev Path := List String

/-- Filesystem model: the set of existing directories and, for each
existing regular file, its size in bytes.  Only sizes matter to the
script (it writes no bytes), so file contents are modelled by their
lengths. -/
structure FS where
  dirs : List Path
  files : List (Path × Nat)
deriving DecidableEq

/-- The empty filesystem. -/
def emptyFS : FS := ⟨[], []⟩

/-- The list of paths hard-coded in `setup.py` as `estructura`,
verbatim from the source. -/
def estructura : List String := [
  "src/app.js",
  "src/server.js",
  "src/config/index.js",
  "src/config/database.js",
  "src/config/logger.js",
  "src/database/schema.prisma",
  "src/database/migrations/.gitkeep",
  "src/services/whatsappService.js",
  "src/services/aiService.js",
  "src/services/ragService.js",
  "src/services/documentService.js",
  "src/services/sheetsService.js",
  "src/services/emailService.js",
  "src/core/conversationManager.js",
  "src/core/fieldTracker.js",
  "src/core/completionChecker.js",
  "src/controllers/webhookController.js",
  "src/controllers/simulatorController.js",
  "src/controllers/adminController.js",
  "src/middleware/errorHandler.js",
  "src/middleware/validation.js",
  "src/middleware/auth.js",
  "src/routes/index.js",
  "src/routes/webhooks.js",
  "src/routes/admin.js",
  "src/routes/simulator.js",
  "src/utils/constants.js",
  "src/utils/helpers.js",
  "src/utils/validators.js",
  "src/types/index.js",
  "src/types/schemas.js",
  "knowledge-base/real-estate-data.json",
  "scripts/simulate-form.js",
  "scripts/load-knowledge.js",
  "scripts/test-conversation.js",
  "tests/unit/.gitkeep",
  "tests/integration/.gitkeep",
  ".env.example",
  ".env",
  "package.json",
  "package-lock.json",
  "tsconfig.json",
  ".gitignore",
  "README.md",
  "Dockerfile"]

/-- Helper for `splitPath`: split a character list at `/`, accumulating
the current (reversed) component. -/
def splitAux : List Char → List Char → List String
  | [], acc => [String.mk acc.reverse]
  | c :: rest, acc =>
    if c = '/' then String.mk acc.reverse :: splitAux rest []
    else splitAux rest (c :: acc)

/-- Split a path string into its components (`os.path` semantics for the
slash-separated relative paths used by the script). -/
def splitPath (p : String) : Path := splitAux p.data []

/-- Python's `path.endswith("/")`, on the character list. -/
def endsWithSlash (p : String) : Bool :=
  match p.data.getLast? with
  | some c => c = '/'
  | none => false

/-- The keys of the existing regular files. -/
def fileKeys (fs : FS) : List Path := fs.files.map Prod.fst

/-- Whether `p` exists as a regular file. -/
def isFile (fs : FS) (p : Path) : Bool := decide (p ∈ fileKeys fs)

/-- Whether `p` exists as a directory. -/
def isDir (fs : FS) (p : Path) : Bool := decide (p ∈ fs.dirs)

/-- `os.path.exists`: the path exists as a directory or as a file. -/
def pathExists (fs : FS) (p : Path) : Bool := isDir fs p || isFile fs p

/-- Size of the file at `p`, if a file exists there. -/
def lookupFile : List (Path × Nat) → Path → Option Nat
  | [], _ => none
  | e :: t, p => if e.1 = p then some e.2 else lookupFile t p

/-- `open(p, "w")`'s effect on the file table: create `p` empty, or
truncate an existing `p` to zero bytes. -/
def setFile : List (Path × Nat) → Path → List (Path × Nat)
  | [], p => [(p, 0)]
  | e :: t, p => if e.1 = p then (p, 0) :: t else e :: setFile t p

/-- All non-empty prefixes of `d`, shortest first: the chain of
directories `os.makedirs` walks when creating `d`. -/
def ancPrefixes (d : Path) : List Path :=
  (List.range d.length).map (fun i => d.take (i + 1))

/-- One level of `os.makedirs`: creating directory `q` fails if a regular
file occupies `q`, is a no-op if `q` already is a directory, and
otherwise records the new directory. -/
def mkdirOne (ofs : Option FS) (q : Path) : Option FS :=
  match ofs with
  | none => none
  | some fs =>
    if isFile fs q then none
    else if q ∈ fs.dirs then some fs
    else some { fs with dirs := fs.dirs ++ [q] }

/-- `os.makedirs(d, exist_ok=True)`: create every missing directory on
the chain leading to `d`. -/
def makedirs (fs : FS) (d : Path) : Option FS :=
  (ancPrefixes d).foldl mkdirOne (some fs)

/-- `open(p, "w")` followed by immediately closing the handle: fails if
`p` is a directory or its parent directory is missing; otherwise leaves
an empty (truncated) file at `p`. -/
def openW (fs : FS) (p : Path) : Option FS :=
  if p ∈ fs.dirs then none
  else if p.dropLast ≠ [] ∧ p.dropLast ∉ fs.dirs then none
  else some { fs with files := setFile fs.files p }

/-- One iteration of the script's `for path in estructura` loop:
`dir_name = os.path.dirname(path)`; `os.makedirs` when `dir_name` is
non-empty and does not exist; then `open(path, "w")` unless the path
ends in a slash. -/
def step (fs : FS) (path : String) : Option FS :=
  let dir_name := (splitPath path).dropLast
  let afterMk : Option FS :=
    if dir_name ≠ [] ∧ pathExists fs dir_name = false then makedirs fs dir_name
    else some fs
  match afterMk with
  | none => none
  | some fs1 =>
    if endsWithSlash path = false then openW fs1 (splitPath path) else some fs1

/-- Run the loop body over a list of paths, propagating failure. -/
def runFrom : Option FS → List String → Option FS
  | ofs, [] => ofs
  | ofs, p :: rest => runFrom (ofs.bind (fun fs => step fs p)) rest

/-- The whole script: the loop over `estructura`. -/
def run (fs : FS) : Option FS := runFrom (some fs) estructura

/-- The single line the script prints, after the loop completes. -/
def finalMessage : String := "✅ Estructura del proyecto Node.js creada con éxito."

/-- Standard output of a run: the success banner when the loop completes,
nothing when an operation raises. -/
def output (fs : FS) : List String :=
  match run fs with
  | some _ => [finalMessage]
  | none => []

/-- Well-formedness of a filesystem: the set of directories is closed
under taking non-empty prefixes (every directory's ancestors exist). -/
def prefClosed (fs : FS) : Prop :=
  ∀ d ∈ fs.dirs, ∀ q ∈ ancPrefixes d, q ∈ fs.dirs

instance (fs : FS) : Decidable (prefClosed fs) := by
  unfold prefClosed; infer_instance

/-- The observable shape of a filesystem: which directories and which
file names exist, forgetting file contents/sizes. -/
def shapeOf (fs : FS) : List Path × List Path := (fs.dirs, fileKeys fs)

/-- The filesystem produced by running the script on an empty directory. -/
def fsResult : FS := (run emptyFS).getD emptyFS

/-- An initial filesystem that already holds a non-empty `README.md`. -/
def fsPre : FS := ⟨[], [(["README.md"], 5)]⟩

/-- The filesystem produced by running the script on `fsPre`. -/
def fsPreRun : FS := (run fsPre).getD emptyFS

/-- An initial filesystem with an unrelated directory and file. -/
def fsFrame : FS := ⟨[["keep"]], [(["keep", "data.txt"], 7)]⟩

/-- The filesystem produced by running the script on `fsFrame`. -/
def fsFrameRun : FS := (run fsFrame).getD emptyFS

/-- `fsPre` with a different content size for `README.md` (same shape). -/
def fsPre9 : FS := ⟨[], [(["README.md"], 9)]⟩

end SetupPy

namespace Engine

/-- Modelled from the spec: the conversation statuses of a Conversation
State (§3): active, awaiting-clarification, completed, abandoned. -/
inductive Status where
  | active
  | awaitingClarification
  | completed
  | abandoned
deriving DecidableEq

/-- Modelled from the spec: the provenance of a Collected Field Value
(§3): user-stated, inferred, or corrected. -/
inductive Source where
  | userStated
  | inferred
  | corrected
deriving DecidableEq

/-- Modelled from the spec: a Field Definition (§3) — key, prompt label,
required flag, validator predicate over raw input, and the set of field
keys that must be filled first.  The concrete value type is abstracted to
the raw string. -/
structure FieldDef where
  key : String
  label : String
  required : Bool
  validator : String → Bool
  dependsOn : List String

/-- Modelled from the spec: a Collected Field Value (§3) — value, source,
optional confidence score, and whether the value counts as satisfied (a
low-confidence value awaiting clarification is recorded but not
satisfied). -/
structure CollectedValue where
  value : String
  source : Source
  confidence : Option Nat
  satisfied : Bool
deriving DecidableEq

/-- Modelled from the spec: one entry of the message log (§3) —
direction, text, timestamp, messageId. -/
structure LogEntry where
  inbound : Bool
  text : String
  timestamp : Nat
  messageId : String
deriving DecidableEq

/-- Modelled from the spec: a Conversation State (§3). -/
structure ConvState where
  status : Status
  collectedFields : List (String × CollectedValue)
  pendingFieldKey : Option String
  clarificationPending : Bool
  messageLog : List LogEntry
  createdAt : Nat
  lastActivityAt : Nat
  completedAt : Option Nat
deriving DecidableEq

/-- Modelled from the spec: an inbound message event from the messaging
transport (§6): conversation-scoped messageId, text, timestamp. -/
structure InMsg where
  messageId : String
  text : String
  timestamp : Nat

/-- Modelled from the spec: the AI-extraction capability's result (§6), a
mapping of field key to candidate value with a confidence score
(0–100). -/
abbrev Extraction := List (String × String × Nat)

/-- Modelled from the spec: look up the live Collected Field Value for a
key (at most one live value per key). -/
def lookupField (cf : List (String × CollectedValue)) (k : String) :
    Option CollectedValue :=
  match cf with
  | [] => none
  | e :: t => if e.1 = k then some e.2 else lookupField t k

/-- Modelled from the spec: whether field `k` has a satisfied Collected
Field Value. -/
def satisfiedAt (cf : List (String × CollectedValue)) (k : String) : Bool :=
  match lookupField cf k with
  | some v => v.satisfied
  | none => false

/-- Modelled from the spec: every required Field Definition has a
satisfied Collected Field Value. -/
def requiredSatisfied (schema : List FieldDef) (cf : List (String × CollectedValue)) :
    Bool :=
  schema.all (fun f => !f.required || satisfiedAt cf f.key)

/-- Modelled from the spec: a field is eligible once its `dependsOn` are
all satisfied (§4.1). -/
def eligible (cf : List (String × CollectedValue)) (f : FieldDef) : Bool :=
  f.dependsOn.all (fun d => satisfiedAt cf d)

/-- Modelled from the spec: the declaration-ordered list of required
Field Definitions without a satisfied Collected Field Value (§4.1). -/
def stillPending (schema : List FieldDef) (cf : List (String × CollectedValue)) :
    List FieldDef :=
  schema.filter (fun f => f.required && !satisfiedAt cf f.key)

/-- Modelled from the spec: the next `pendingFieldKey` — the first
eligible entry of `stillPending`, or none (§4.1). -/
def selectPending (schema : List FieldDef) (cf : List (String × CollectedValue)) :
    Option String :=
  (((stillPending schema cf).filter (fun f => eligible cf f)).head?).map
    (fun f => f.key)

/-- Modelled from the spec: record the latest value for a key (latest
write wins; the audit history kept by the real store is not needed for
the verified properties). -/
def setField (cf : List (String × CollectedValue)) (k : String) (v : CollectedValue) :
    List (String × CollectedValue) :=
  match cf with
  | [] => [(k, v)]
  | e :: t => if e.1 = k then (k, v) :: t else e :: setField t k v

/-- Modelled from the spec, §4.1: handling of the pending field.  Direct
validation of the raw text first; on failure a lenient AI extraction,
accepted as satisfied only at or above the confidence threshold,
otherwise recorded unsatisfied with a clarification flag.  Returns the
updated fields and the clarification flag. -/
def directPass (schema : List FieldDef) (ext : Extraction) (confidenceThreshold : Nat)
    (cf : List (String × CollectedValue)) (pending : Option String) (raw : String) :
    List (String × CollectedValue) × Bool :=
  match pending with
  | none => (cf, false)
  | some k =>
    match schema.find? (fun f => decide (f.key = k)) with
    | none => (cf, false)
    | some f =>
      if f.validator raw then
        (setField cf k ⟨raw, Source.userStated, none, true⟩, false)
      else
        match ext.find? (fun e => decide (e.1 = k)) with
        | none => (cf, false)
        | some e =>
          if confidenceThreshold ≤ e.2.2 then
            (setField cf k ⟨e.2.1, Source.inferred, some e.2.2, true⟩, false)
          else
            (setField cf k ⟨e.2.1, Source.inferred, some e.2.2, false⟩, true)

/-- Modelled from the spec, §4.1: incidental mentions of other fields in
the same message — every extracted candidate for a non-pending schema
field that passes validation is recorded with source inferred. -/
def applyIncidental (schema : List FieldDef) (pending : Option String)
    (ext : Extraction) (cf : List (String × CollectedValue)) :
    List (String × CollectedValue) :=
  ext.foldl
    (fun acc e =>
      if pending = some e.1 then acc
      else
        match schema.find? (fun f => decide (f.key = e.1)) with
        | none => acc
        | some f =>
          if f.validator e.2.1 then
            setField acc e.1 ⟨e.2.1, Source.inferred, some e.2.2, true⟩
          else acc)
    cf

/-- Modelled from the spec, §4.1: the Field Tracker's
`update(state, rawInputText)` — pending-field pass, incidental
extraction, then selection of the next `pendingFieldKey` as the first
eligible entry of `stillPending`.  Returns (updated fields, next pending
key, clarification flag). -/
def update (schema : List FieldDef) (extract : String → Extraction)
    (confidenceThreshold : Nat) (cf : List (String × CollectedValue))
    (pending : Option String) (raw : String) :
    List (String × CollectedValue) × Option String × Bool :=
  let ext := extract raw
  let r := directPass schema ext confidenceThreshold cf pending raw
  let cf2 := applyIncidental schema pending ext r.1
  (cf2, selectPending schema cf2, r.2)

/-- Modelled from the spec, §4.3: the Completion Checker's pure
`check(state) → (status, reason)`: completed iff every required field is
satisfied; abandoned iff inactive beyond the threshold and not already
completed; otherwise awaiting-clarification or active. -/
def check (schema : List FieldDef) (inactivityThreshold now : Nat) (s : ConvState) :
    Status × String :=
  if requiredSatisfied schema s.collectedFields then
    (Status.completed, "all required fields satisfied")
  else if inactivityThreshold < now - s.lastActivityAt ∧ s.status ≠ Status.completed then
    (Status.abandoned, "inactivity timeout")
  else if s.clarificationPending then
    (Status.awaitingClarification, "low-confidence value awaiting clarification")
  else
    (Status.active, "required fields outstanding")

/-- Modelled from the spec: the messageIds of the inbound entries of a
message log, used for step-1 deduplication (§4.4). -/
def inboundIds (log : List LogEntry) : List String :=
  (log.filter (fun e => e.inbound)).map (fun e => e.messageId)

/-- Modelled from the spec, §4.4 step 3: the fixed reply sent in a
terminal state. -/
def terminalReply : String := "This conversation is already closed. Thank you!"

/-- Modelled from the spec, §4.1: the clarification re-prompt sent for a
low-confidence value. -/
def clarificationReply : String := "Could you confirm that? I want to make sure I got it right."

/-- Modelled from the spec, §4.4 step 8: the acknowledgment sent when the
conversation completes. -/
def completionReply : String := "All set! We have everything we need. Thank you!"

/-- Modelled from the spec: the log entry for an inbound message. -/
def inEntry (m : InMsg) : LogEntry := ⟨true, m.text, m.timestamp, m.messageId⟩

/-- Modelled from the spec: the log entry for an outbound text (outbound
messages carry no transport messageId). -/
def outEntry (t : Nat) (txt : String) : LogEntry := ⟨false, txt, t, ""⟩

/-- Modelled from the spec: the prompt question for a field key (§4.4
step 8). -/
def promptFor (schema : List FieldDef) (k : String) : String :=
  match schema.find? (fun f => decide (f.key = k)) with
  | some f => f.label
  | none => k

/-- Modelled from the spec, §4.4 steps 4–5: the state after the Field
Tracker pass — updated fields, new pending key, clarification flag, and
refreshed activity time. -/
def trackerState (schema : List FieldDef) (extract : String → Extraction)
    (confidenceThreshold : Nat) (s : ConvState) (m : InMsg) : ConvState :=
  let r := update schema extract confidenceThreshold s.collectedFields
    s.pendingFieldKey m.text
  { s with
    collectedFields := r.1
    pendingFieldKey := r.2.1
    clarificationPending := r.2.2
    lastActivityAt := m.timestamp }

/-- Modelled from the spec, §4.4 steps 4–9 (non-terminal, non-duplicate
branch): run the Field Tracker, consult the Completion Checker, set
`completedAt` one-way within the same write as the completed transition,
compose outbound messages, and append the log entries.  Returns the new
state, the outbound texts, and whether the at-most-once completion
dispatch fires on this turn. -/
def processCore (schema : List FieldDef) (extract : String → Extraction)
    (confidenceThreshold inactivityThreshold : Nat) (s : ConvState) (m : InMsg) :
    ConvState × List String × Bool :=
  let s1 := trackerState schema extract confidenceThreshold s m
  let newStatus := (check schema inactivityThreshold m.timestamp s1).1
  let dispatch : Bool := decide (newStatus = Status.completed) && s.completedAt.isNone
  let outs :=
    (if s1.clarificationPending then [clarificationReply] else []) ++
    (match s1.pendingFieldKey with
      | some k => [promptFor schema k]
      | none => []) ++
    (if newStatus = Status.completed then [completionReply] else [])
  let s2 : ConvState :=
    { s1 with
      status := newStatus
      completedAt := if dispatch then some m.timestamp else s.completedAt
      messageLog := s1.messageLog ++ inEntry m :: outs.map (outEntry m.timestamp) }
  (s2, outs, dispatch)

/-- Modelled from the spec, §4.4: the Conversation Manager's per-message
algorithm: deduplicate by messageId (step 1), short-circuit terminal
states (step 3), otherwise run the core turn (steps 4–9). -/
def processMessage (schema : List FieldDef) (extract : String → Extraction)
    (confidenceThreshold inactivityThreshold : Nat) (s : ConvState) (m : InMsg) :
    ConvState × List String × Bool :=
  if m.messageId ∈ inboundIds s.messageLog then (s, [], false)
  else if s.status = Status.completed ∨ s.status = Status.abandoned then
    ({ s with
        messageLog := s.messageLog ++ [inEntry m, outEntry m.timestamp terminalReply] },
      [terminalReply], false)
  else processCore schema extract confidenceThreshold inactivityThreshold s m

/-- Modelled from the spec, §3: the inactivity sweep that moves an
inactive non-terminal conversation to abandoned. -/
def sweep (inactivityThreshold now : Nat) (s : ConvState) : ConvState :=
  if (s.status = Status.active ∨ s.status = Status.awaitingClarification) ∧
      inactivityThreshold < now - s.lastActivityAt then
    { s with status := Status.abandoned }
  else s

/-- Modelled from the spec, §3: the Conversation State created on the
first inbound message for a new conversationId. -/
def initState (now : Nat) : ConvState :=
  { status := Status.active
    collectedFields := []
    pendingFieldKey := none
    clarificationPending := false
    messageLog := []
    createdAt := now
    lastActivityAt := now
    completedAt := none }

/-- Modelled from the spec: the reachable Conversation States — those
produced from a fresh state by any sequence of delivered messages (with
arbitrary extraction-capability behaviour per delivery) and inactivity
sweeps. -/
inductive Reachable (schema : List FieldDef)
    (confidenceThreshold inactivityThreshold : Nat) : ConvState → Prop where
  | init (now : Nat) :
      Reachable schema confidenceThreshold inactivityThreshold (initState now)
  | deliver (extract : String → Extraction) (m : InMsg) (s : ConvState) :
      Reachable schema confidenceThreshold inactivityThreshold s →
      Reachable schema confidenceThreshold inactivityThreshold
        (processMessage schema extract confidenceThreshold inactivityThreshold s m).1
  | timeout (now : Nat) (s : ConvState) :
      Reachable schema confidenceThreshold inactivityThreshold s →
      Reachable schema confidenceThreshold inactivityThreshold
        (sweep inactivityThreshold now s)

/-- Modelled from the spec, §8: a whole delivery sequence against one
conversation, counting how many times the downstream record sink's
`submit` is triggered.  Each delivery carries its own
extraction-capability behaviour. -/
def runDeliveries (schema : List FieldDef)
    (confidenceThreshold inactivityThreshold : Nat) :
    List ((String → Extraction) × InMsg) → ConvState → Nat → ConvState × Nat
  | [], s, c => (s, c)
  | d :: rest, s, c =>
    let r := processMessage schema d.1 confidenceThreshold inactivityThreshold s d.2
    runDeliveries schema confidenceThreshold inactivityThreshold rest r.1
      (c + (if r.2.2 then 1 else 0))

/-- Modelled from the spec, §8's example schema: a required name field
with no dependencies. -/
def nameField : FieldDef :=
  { key := "name"
    label := "What is your name?"
    required := true
    validator := fun s => decide (s ≠ "")
    dependsOn := [] }

/-- Modelled from the spec, §8's example schema: a required budget field
that depends on name. -/
def budgetField : FieldDef :=
  { key := "budget"
    label := "What is your budget?"
    required := true
    validator := fun s => decide (s ≠ "")
    dependsOn := ["name"] }

/-- Modelled from the spec, §8's example schema. -/
def schemaNB : List FieldDef := [nameField, budgetField]

/-- An extraction capability that identifies nothing. -/
def extractNone : String → Extraction := fun _ => []

/-- A concrete state whose log already holds inbound messageId `m1`. -/
def loggedState : ConvState :=
  { status := Status.active
    collectedFields := []
    pendingFieldKey := some "name"
    clarificationPending := false
    messageLog := [⟨true, "Hi", 0, "m1"⟩]
    createdAt := 0
    lastActivityAt := 0
    completedAt := none }

/-- A redelivery of messageId `m1`. -/
def msgDup : InMsg := ⟨"m1", "Hi again", 5⟩

end Engine

namespace SetupPy

theorem lookupFile_setFile_self (l : List (Path × Nat)) (p : Path) :
    lookupFile (setFile l p) p = some 0 := by
  induction l with
  | nil => simp [setFile, lookupFile]
  | cons e t ih =>
    by_cases h : e.1 = p
    · simp [setFile, h, lookupFile]
    · simp [setFile, h, lookupFile, ih]

theorem lookupFile_setFile_ne (l : List (Path × Nat)) (p q : Path) (hne : q ≠ p) :
    lookupFile (setFile l p) q = lookupFile l q := by
  induction l with
  | nil =>
    have h2 : ¬ (p = q) := fun hpq => hne hpq.symm
    simp [setFile, lookupFile, h2]
  | cons e t ih =>
    by_cases h : e.1 = p
    · have h2 : ¬ (p = q) := fun hpq => hne hpq.symm
      simp [setFile, h, lookupFile, h2]
    · simp only [setFile, if_neg h, lookupFile]
      by_cases h3 : e.1 = q
      · simp [h3]
      · simp [h3, ih]

theorem setFile_eq_of_zero (l : List (Path × Nat)) (p : Path)
    (h : lookupFile l p = some 0) : setFile l p = l := by
  induction l with
  | nil => simp [lookupFile] at h
  | cons e t ih =>
    by_cases he : e.1 = p
    · simp only [lookupFile, if_pos he] at h
      have h0 : e.2 = 0 := by simpa using h
      simp only [setFile, if_pos he]
      have : e = (p, 0) := Prod.ext he h0
      rw [this]
    · simp only [lookupFile, if_neg he] at h
      simp [setFile, he, ih h]

theorem lookupFile_isSome (l : List (Path × Nat)) (q : Path) :
    (lookupFile l q).isSome = true ↔ q ∈ l.map Prod.fst := by
  induction l with
  | nil => simp [lookupFile]
  | cons e t ih =>
    by_cases he : e.1 = q
    · simp [lookupFile, he]
    · simp [lookupFile, he, ih, Ne.symm he]

theorem keys_setFile (l : List (Path × Nat)) (p : Path) :
    (setFile l p).map Prod.fst =
      if p ∈ l.map Prod.fst then l.map Prod.fst else l.map Prod.fst ++ [p] := by
  induction l with
  | nil => simp [setFile]
  | cons e t ih =>
    by_cases he : e.1 = p
    · simp [setFile, he]
    · have hne : ¬ (p = e.1) := fun h => he h.symm
      by_cases hm : p ∈ t.map Prod.fst
      · simp [setFile, he, ih, hm, hne]
      · simp [setFile, he, ih, hm, hne]

theorem ancPrefixes_nil : ancPrefixes ([] : Path) = [] := by
  simp [ancPrefixes]

theorem mem_ancPrefixes {q d : Path} :
    q ∈ ancPrefixes d ↔ ∃ i, i < d.length ∧ q = d.take (i + 1) := by
  simp only [ancPrefixes, List.mem_map, List.mem_range]
  constructor
  · rintro ⟨i, hi, rfl⟩; exact ⟨i, hi, rfl⟩
  · rintro ⟨i, hi, rfl⟩; exact ⟨i, hi, rfl⟩

theorem ancPrefixes_trans {x q d : Path}
    (hq : q ∈ ancPrefixes d) (hx : x ∈ ancPrefixes q) : x ∈ ancPrefixes d := by
  rw [mem_ancPrefixes] at hq hx ⊢
  obtain ⟨i, hi, rfl⟩ := hq
  obtain ⟨j, hj, rfl⟩ := hx
  rw [List.length_take] at hj
  refine ⟨j, ?_, ?_⟩
  · omega
  · rw [List.take_take]
    congr 1
    omega

theorem mem_self_ancPrefixes {d : Path} (hd : d ≠ []) : d ∈ ancPrefixes d := by
  rw [mem_ancPrefixes]
  refine ⟨d.length - 1, ?_, ?_⟩
  · cases d with
    | nil => exact absurd rfl hd
    | cons a t => simp
  · have hlen : 0 < d.length := List.length_pos.mpr hd
    rw [show d.length - 1 + 1 = d.length by omega, List.take_length]

theorem foldl_mkdirOne_none (qs : List Path) : qs.foldl mkdirOne none = none := by
  induction qs with
  | nil => rfl
  | cons q t ih => simp [mkdirOne, ih]

theorem foldl_mkdirOne_spec (qs : List Path) : ∀ fs fs' : FS,
    qs.foldl mkdirOne (some fs) = some fs' →
    fs'.files = fs.files ∧ (∀ x ∈ fs.dirs, x ∈ fs'.dirs) ∧
    (∀ x ∈ fs'.dirs, x ∈ fs.dirs ∨ (x ∈ qs ∧ isFile fs x = false)) ∧
    (∀ q ∈ qs, q ∈ fs'.dirs) := by
  induction qs with
  | nil =>
    intro fs fs' h
    simp only [List.foldl_nil, Option.some.injEq] at h
    subst h
    exact ⟨rfl, fun x hx => hx, fun x hx => Or.inl hx, by simp⟩
  | cons q t ih =>
    intro fs fs' h
    simp only [List.foldl_cons] at h
    cases hf : isFile fs q with
    | true =>
      rw [show mkdirOne (some fs) q = none by simp [mkdirOne, hf]] at h
      rw [foldl_mkdirOne_none] at h
      exact absurd h (by simp)
    | false =>
      by_cases hd : q ∈ fs.dirs
      · rw [show mkdirOne (some fs) q = some fs by simp [mkdirOne, hf, hd]] at h
        obtain ⟨h1, h2, h3, h4⟩ := ih fs fs' h
        refine ⟨h1, h2, ?_, ?_⟩
        · intro x hx
          rcases h3 x hx with hx' | ⟨hxt, hxf⟩
          · exact Or.inl hx'
          · exact Or.inr ⟨List.mem_cons_of_mem _ hxt, hxf⟩
        · intro q' hq'
          rcases List.mem_cons.mp hq' with rfl | hq't
          · exact h2 q' hd
          · exact h4 q' hq't
      · rw [show mkdirOne (some fs) q = some { fs with dirs := fs.dirs ++ [q] } by
             simp [mkdirOne, hf, hd]] at h
        obtain ⟨h1, h2, h3, h4⟩ := ih _ fs' h
        have hfeq : isFile { fs with dirs := fs.dirs ++ [q] } = isFile fs := rfl
        refine ⟨h1, ?_, ?_, ?_⟩
        · intro x hx
          exact h2 x (by simp [hx])
        · intro x hx
          rcases h3 x hx with hx' | ⟨hxt, hxf⟩
          · simp only [List.mem_append, List.mem_singleton] at hx'
            rcases hx' with hx'' | rfl
            · exact Or.inl hx''
            · exact Or.inr ⟨List.mem_cons_self _ _, hf⟩
          · exact Or.inr ⟨List.mem_cons_of_mem _ hxt, by rw [hfeq] at hxf; exact hxf⟩
        · intro q' hq'
          rcases List.mem_cons.mp hq' with rfl | hq't
          · exact h2 q' (by simp)
          · exact h4 q' hq't

end SetupPy

namespace SetupPy

theorem makedirs_spec {fs fs' : FS} {d : Path} (h : makedirs fs d = some fs') :
    fs'.files = fs.files ∧ (∀ x ∈ fs.dirs, x ∈ fs'.dirs) ∧
    (∀ x ∈ fs'.dirs, x ∈ fs.dirs ∨ (x ∈ ancPrefixes d ∧ isFile fs x = false)) ∧
    (∀ q ∈ ancPrefixes d, q ∈ fs'.dirs) :=
  foldl_mkdirOne_spec (ancPrefixes d) fs fs' h

theorem openW_spec {fs fs' : FS} {p : Path} (h : openW fs p = some fs') :
    fs'.dirs = fs.dirs ∧ fs'.files = setFile fs.files p ∧ p ∉ fs.dirs ∧
    (p.dropLast = [] ∨ p.dropLast ∈ fs.dirs) := by
  unfold openW at h
  by_cases h1 : p ∈ fs.dirs
  · simp [h1] at h
  · rw [if_neg h1] at h
    by_cases h2 : p.dropLast ≠ [] ∧ p.dropLast ∉ fs.dirs
    · rw [if_pos h2] at h
      exact absurd h (by simp)
    · rw [if_neg h2] at h
      have h3 : fs' = { fs with files := setFile fs.files p } := by
        injection h with h; exact h.symm
      subst h3
      push_neg at h2
      refine ⟨rfl, rfl, h1, ?_⟩
      by_cases h4 : p.dropLast = []
      · exact Or.inl h4
      · exact Or.inr (h2 h4)

theorem step_spec {fs fs' : FS} {path : String}
    (hsl : endsWithSlash path = false) (h : step fs path = some fs') :
    (∀ x ∈ fs.dirs, x ∈ fs'.dirs) ∧
    (∀ x ∈ fs'.dirs,
      x ∈ fs.dirs ∨ (x ∈ ancPrefixes ((splitPath path).dropLast) ∧ isFile fs x = false)) ∧
    fs'.files = setFile fs.files (splitPath path) ∧
    splitPath path ∉ fs'.dirs ∧
    ((splitPath path).dropLast = [] ∨ (splitPath path).dropLast ∈ fs'.dirs) ∧
    (prefClosed fs →
      (∀ x ∈ ancPrefixes ((splitPath path).dropLast), x ∈ fs'.dirs) ∧ prefClosed fs') := by
  unfold step at h
  simp only at h
  by_cases hc : (splitPath path).dropLast ≠ [] ∧
      pathExists fs ((splitPath path).dropLast) = false
  · rw [if_pos hc] at h
    cases hmk : makedirs fs ((splitPath path).dropLast) with
    | none => rw [hmk] at h; exact absurd h (by simp)
    | some fs1 =>
      rw [hmk] at h
      simp only [if_pos hsl] at h
      obtain ⟨hfiles1, hmono1, horig1, hall1⟩ := makedirs_spec hmk
      obtain ⟨hdirs2, hfiles2, hnotdir, hpar⟩ := openW_spec h
      have hfacts :
          (∀ x ∈ fs.dirs, x ∈ fs'.dirs) ∧
          (∀ x ∈ fs'.dirs,
            x ∈ fs.dirs ∨
              (x ∈ ancPrefixes ((splitPath path).dropLast) ∧ isFile fs x = false)) ∧
          fs'.files = setFile fs.files (splitPath path) ∧
          splitPath path ∉ fs'.dirs ∧
          ((splitPath path).dropLast = [] ∨ (splitPath path).dropLast ∈ fs'.dirs) ∧
          (∀ x ∈ ancPrefixes ((splitPath path).dropLast), x ∈ fs'.dirs) := by
        refine ⟨?_, ?_, ?_, ?_, ?_, ?_⟩
        · intro x hx; rw [hdirs2]; exact hmono1 x hx
        · intro x hx; rw [hdirs2] at hx; exact horig1 x hx
        · rw [hfiles2, hfiles1]
        · rw [hdirs2]; exact hnotdir
        · rcases hpar with h0 | hmem
          · exact Or.inl h0
          · exact Or.inr (by rw [hdirs2]; exact hmem)
        · intro x hx; rw [hdirs2]; exact hall1 x hx
      obtain ⟨f1, f2, f3, f4, f5, f6⟩ := hfacts
      refine ⟨f1, f2, f3, f4, f5, fun hpc => ⟨f6, ?_⟩⟩
      intro d hd q hq
      rcases f2 d hd with hdir | ⟨hanc, _⟩
      · exact f1 q (hpc d hdir q hq)
      · exact f6 q (ancPrefixes_trans hanc hq)
  · rw [if_neg hc] at h
    simp only [if_pos hsl] at h
    obtain ⟨hdirs2, hfiles2, hnotdir, hpar⟩ := openW_spec h
    have hanc : prefClosed fs → ∀ x ∈ ancPrefixes ((splitPath path).dropLast),
        x ∈ fs.dirs := by
      intro hpc x hx
      by_cases h0 : (splitPath path).dropLast = []
      · rw [h0, ancPrefixes_nil] at hx
        exact absurd hx (by simp)
      · have hmem : (splitPath path).dropLast ∈ fs.dirs := by
          rcases hpar with h1 | h1
          · exact absurd h1 h0
          · exact h1
        exact hpc _ hmem x hx
    refine ⟨?_, ?_, ?_, ?_, ?_, ?_⟩
    · intro x hx; rw [hdirs2]; exact hx
    · intro x hx; rw [hdirs2] at hx; exact Or.inl hx
    · rw [hfiles2]
    · rw [hdirs2]; exact hnotdir
    · rcases hpar with h0 | hmem
      · exact Or.inl h0
      · exact Or.inr (by rw [hdirs2]; exact hmem)
    · intro hpc
      constructor
      · intro x hx; rw [hdirs2]; exact hanc hpc x hx
      · intro d hd q hq
        rw [hdirs2] at hd ⊢
        exact hpc d hd q hq

end SetupPy

namespace SetupPy

theorem runFrom_none (paths : List String) : runFrom none paths = none := by
  induction paths with
  | nil => rfl
  | cons p rest ih => simpa [runFrom] using ih

theorem isFile_of_zero {fs : FS} {q : Path} (h : lookupFile fs.files q = some 0) :
    isFile fs q = true := by
  have : (lookupFile fs.files q).isSome = true := by rw [h]; rfl
  rw [lookupFile_isSome] at this
  exact decide_eq_true this

theorem runFrom_spec : ∀ (paths : List String) (fs fs' : FS),
    (∀ p ∈ paths, endsWithSlash p = false) →
    runFrom (some fs) paths = some fs' →
    (∀ x ∈ fs.dirs, x ∈ fs'.dirs) ∧
    (∀ x ∈ fs'.dirs,
      x ∈ fs.dirs ∨ ∃ p ∈ paths, x ∈ ancPrefixes ((splitPath p).dropLast)) ∧
    (∀ q, lookupFile fs.files q = some 0 → q ∉ fs.dirs →
      lookupFile fs'.files q = some 0 ∧ q ∉ fs'.dirs) ∧
    (∀ q, (∀ p ∈ paths, splitPath p ≠ q) →
      lookupFile fs'.files q = lookupFile fs.files q) ∧
    (∀ p ∈ paths,
      (lookupFile fs'.files (splitPath p) = some 0 ∧ splitPath p ∉ fs'.dirs) ∧
      ((splitPath p).dropLast = [] ∨ (splitPath p).dropLast ∈ fs'.dirs)) ∧
    (prefClosed fs → prefClosed fs' ∧
      ∀ p ∈ paths, ∀ x ∈ ancPrefixes ((splitPath p).dropLast), x ∈ fs'.dirs) := by
  intro paths
  induction paths with
  | nil =>
    intro fs fs' _ h
    have hfs : fs = fs' := by injection h
    subst hfs
    refine ⟨fun x hx => hx, fun x hx => Or.inl hx, fun q h1 h2 => ⟨h1, h2⟩,
      fun q _ => rfl, by simp, fun hpc => ⟨hpc, by simp⟩⟩
  | cons p rest ih =>
    intro fs fs' hall h
    have hp : endsWithSlash p = false := hall p (List.mem_cons_self p rest)
    have hrest : ∀ q ∈ rest, endsWithSlash q = false :=
      fun q hq => hall q (List.mem_cons_of_mem _ hq)
    rw [show runFrom (some fs) (p :: rest) = runFrom (step fs p) rest from rfl] at h
    cases hstep : step fs p with
    | none =>
      rw [hstep, runFrom_none] at h
      exact absurd h (by simp)
    | some fs1 =>
      rw [hstep] at h
      obtain ⟨s1, s2, s3, s4, s5, s6⟩ := step_spec hp hstep
      obtain ⟨i1, i2, i3, i4, i5, i6⟩ := ih fs1 fs' hrest h
      have hstep0 : ∀ q, lookupFile fs.files q = some 0 → q ∉ fs.dirs →
          lookupFile fs1.files q = some 0 ∧ q ∉ fs1.dirs := by
        intro q h0 hnd
        constructor
        · rw [s3]
          by_cases hq : q = splitPath p
          · subst hq; exact lookupFile_setFile_self _ _
          · rw [lookupFile_setFile_ne _ _ _ hq]; exact h0
        · intro hq1
          rcases s2 q hq1 with hmem | ⟨_, hnf⟩
          · exact hnd hmem
          · rw [isFile_of_zero h0] at hnf
            exact absurd hnf (by simp)
      refine ⟨?_, ?_, ?_, ?_, ?_, ?_⟩
      · intro x hx
        exact i1 x (s1 x hx)
      · intro x hx
        rcases i2 x hx with hx1 | ⟨q, hq, hanc⟩
        · rcases s2 x hx1 with hmem | ⟨hanc, _⟩
          · exact Or.inl hmem
          · exact Or.inr ⟨p, List.mem_cons_self _ _, hanc⟩
        · exact Or.inr ⟨q, List.mem_cons_of_mem _ hq, hanc⟩
      · intro q h0 hnd
        obtain ⟨h0', hnd'⟩ := hstep0 q h0 hnd
        exact i3 q h0' hnd'
      · intro q hne
        have hq1 : lookupFile fs1.files q = lookupFile fs.files q := by
          rw [s3]
          exact lookupFile_setFile_ne _ _ _
            (fun hq => hne p (List.mem_cons_self _ _) hq.symm)
        rw [i4 q (fun p' hp' => hne p' (List.mem_cons_of_mem _ hp')), hq1]
      · intro p' hp'
        rcases List.mem_cons.mp hp' with rfl | hp't
        · have h0 : lookupFile fs1.files (splitPath p') = some 0 := by
            rw [s3]; exact lookupFile_setFile_self _ _
          refine ⟨i3 (splitPath p') h0 s4, ?_⟩
          rcases s5 with h5 | h5
          · exact Or.inl h5
          · exact Or.inr (i1 _ h5)
        · exact i5 p' hp't
      · intro hpc
        obtain ⟨hanc1, hpc1⟩ := s6 hpc
        obtain ⟨hpc', hancs⟩ := i6 hpc1
        refine ⟨hpc', ?_⟩
        intro p' hp' x hx
        rcases List.mem_cons.mp hp' with rfl | hp't
        · exact i1 x (hanc1 x hx)
        · exact hancs p' hp't x hx

end SetupPy

namespace SetupPy

theorem estructura_no_trailing_slash : ∀ p ∈ estructura, endsWithSlash p = false := by
  decide

/-- C1 (amended: 45 paths, not 48).  After `setup.py` runs to completion
on a well-formed filesystem, every path listed in `estructura` exists as
a regular file of zero length and every ancestor directory of those
paths exists; the script writes no bytes, so the skeleton is empty.
`estructura` lists 45 paths. -/
theorem run_creates_empty_skeleton (fs fs' : FS) (p : String)
    (hwf : prefClosed fs) (h : run fs = some fs') (hp : p ∈ estructura) :
    lookupFile fs'.files (splitPath p) = some 0 ∧
    (ancPrefixes ((splitPath p).dropLast)).all (fun q => decide (q ∈ fs'.dirs)) = true ∧
    estructura.length = 45 := by
  obtain ⟨_, _, _, _, i5, i6⟩ :=
    runFrom_spec estructura fs fs' estructura_no_trailing_slash h
  refine ⟨(i5 p hp).1.1, ?_, by decide⟩
  rw [List.all_eq_true]
  intro q hq
  exact decide_eq_true ((i6 hwf).2 p hp q hq)

/-- C1 counterexample to the stated count: `estructura` does not list 48
paths (it lists 45). -/
theorem estructura_count_not_48 : ¬ (estructura.length = 48) := by decide

/-- C1 witness: concrete instantiation on the empty filesystem at the
path `src/config/index.js`. -/
theorem run_creates_empty_skeleton_witness :
    prefClosed emptyFS ∧ run emptyFS = some fsResult ∧
    "src/config/index.js" ∈ estructura ∧
    (lookupFile fsResult.files (splitPath "src/config/index.js") = some 0 ∧
     (ancPrefixes ((splitPath "src/config/index.js").dropLast)).all
       (fun q => decide (q ∈ fsResult.dirs)) = true ∧
     estructura.length = 45) :=
  ⟨by decide, by decide, by decide,
    run_creates_empty_skeleton emptyFS fsResult "src/config/index.js"
      (by decide) (by decide) (by decide)⟩

end SetupPy

namespace SetupPy

theorem runFrom_fixpoint (paths : List String) (fs' : FS)
    (hfx : ∀ p ∈ paths, endsWithSlash p = false ∧
      lookupFile fs'.files (splitPath p) = some 0 ∧ splitPath p ∉ fs'.dirs ∧
      ((splitPath p).dropLast = [] ∨ (splitPath p).dropLast ∈ fs'.dirs)) :
    runFrom (some fs') paths = some fs' := by
  induction paths with
  | nil => rfl
  | cons p rest ih =>
    obtain ⟨hsl, h0, hnd, hdn⟩ := hfx p (List.mem_cons_self _ _)
    have hc : ¬ ((splitPath p).dropLast ≠ [] ∧
        pathExists fs' ((splitPath p).dropLast) = false) := by
      rcases hdn with h1 | h1
      · intro hca; exact hca.1 h1
      · intro hca
        have hpe : pathExists fs' ((splitPath p).dropLast) = true := by
          unfold pathExists isDir
          rw [decide_eq_true h1]
          rfl
        rw [hpe] at hca
        exact absurd hca.2 (by simp)
    have hc2 : ¬ ((splitPath p).dropLast ≠ [] ∧ (splitPath p).dropLast ∉ fs'.dirs) := by
      rcases hdn with h1 | h1
      · intro hca; exact hca.1 h1
      · intro hca; exact hca.2 h1
    have hstep : step fs' p = some fs' := by
      show (match (if ((splitPath p).dropLast ≠ [] ∧
              pathExists fs' ((splitPath p).dropLast) = false) then
              makedirs fs' ((splitPath p).dropLast)
            else some fs') with
        | none => none
        | some fs1 =>
          if endsWithSlash p = false then openW fs1 (splitPath p) else some fs1) =
        some fs'
      rw [if_neg hc]
      show (if endsWithSlash p = false then openW fs' (splitPath p) else some fs') =
        some fs'
      rw [if_pos hsl]
      show (if splitPath p ∈ fs'.dirs then none
        else if (splitPath p).dropLast ≠ [] ∧ (splitPath p).dropLast ∉ fs'.dirs then
          none
        else some { fs' with files := setFile fs'.files (splitPath p) }) = some fs'
      rw [if_neg hnd, if_neg hc2, setFile_eq_of_zero _ _ h0]
    rw [show runFrom (some fs') (p :: rest) = runFrom (step fs' p) rest from rfl, hstep]
    exact ih (fun q hq => hfx q (List.mem_cons_of_mem _ hq))

/-- C2: running `setup.py` twice produces the same final filesystem as
running it once: whenever the first run succeeds with result `fs'`, the
second run succeeds and changes nothing. -/
theorem run_idempotent (fs fs' : FS) (h : run fs = some fs') : run fs' = some fs' := by
  obtain ⟨_, _, _, _, i5, _⟩ :=
    runFrom_spec estructura fs fs' estructura_no_trailing_slash h
  refine runFrom_fixpoint estructura fs' ?_
  intro p hp
  obtain ⟨⟨h0, hnd⟩, hdn⟩ := i5 p hp
  exact ⟨estructura_no_trailing_slash p hp, h0, hnd, hdn⟩

/-- C2 witness: the script run on the empty filesystem yields `fsResult`,
and running it again from `fsResult` returns `fsResult` unchanged. -/
theorem run_idempotent_witness :
    run emptyFS = some fsResult ∧ run fsResult = some fsResult :=
  ⟨by decide, run_idempotent emptyFS fsResult (by decide)⟩

/-- C3: every listed path that already exists as a regular file with
non-empty content is truncated to zero bytes by the run; mode `"w"`
destroys pre-existing content unconditionally. -/
theorem run_truncates_existing (fs fs' : FS) (p : String) (n : Nat)
    (hp : p ∈ estructura) (hpre : lookupFile fs.files (splitPath p) = some n)
    (hn : n ≠ 0) (h : run fs = some fs') :
    lookupFile fs'.files (splitPath p) = some 0 := by
  obtain ⟨_, _, _, _, i5, _⟩ :=
    runFrom_spec estructura fs fs' estructura_no_trailing_slash h
  exact (i5 p hp).1.1

/-- C3 witness: a 5-byte `README.md` present before the run is a 0-byte
file after it. -/
theorem run_truncates_existing_witness :
    "README.md" ∈ estructura ∧
    lookupFile fsPre.files (splitPath "README.md") = some 5 ∧
    (5 : Nat) ≠ 0 ∧ run fsPre = some fsPreRun ∧
    lookupFile fsPreRun.files (splitPath "README.md") = some 0 :=
  ⟨by decide, by decide, by decide, by decide,
    run_truncates_existing fsPre fsPreRun "README.md" 5
      (by decide) (by decide) (by decide) (by decide)⟩

/-- C4: frame property.  A successful run deletes nothing (directories
persist), creates only ancestor directories of listed paths, rewrites
only listed paths (to empty files), and leaves every other file entry
exactly as it was. -/
theorem run_frame (fs fs' : FS) (d q : Path) (h : run fs = some fs') :
    (d ∈ fs.dirs → d ∈ fs'.dirs) ∧
    (d ∈ fs'.dirs → d ∈ fs.dirs ∨
      estructura.any
        (fun p => decide (d ∈ ancPrefixes ((splitPath p).dropLast))) = true) ∧
    (estructura.all (fun p => decide (splitPath p ≠ q)) = true →
      lookupFile fs'.files q = lookupFile fs.files q) ∧
    (estructura.any (fun p => decide (splitPath p = q)) = true →
      lookupFile fs'.files q = some 0) := by
  obtain ⟨i1, i2, _, i4, i5, _⟩ :=
    runFrom_spec estructura fs fs' estructura_no_trailing_slash h
  refine ⟨fun hd => i1 d hd, ?_, ?_, ?_⟩
  · intro hd
    rcases i2 d hd with hmem | ⟨p, hp, hanc⟩
    · exact Or.inl hmem
    · refine Or.inr ?_
      rw [List.any_eq_true]
      exact ⟨p, hp, decide_eq_true hanc⟩
  · intro hne
    rw [List.all_eq_true] at hne
    exact i4 q (fun p hp => of_decide_eq_true (hne p hp))
  · intro hsome
    rw [List.any_eq_true] at hsome
    obtain ⟨p, hp, hq⟩ := hsome
    have hq' : splitPath p = q := of_decide_eq_true hq
    rw [← hq']
    exact (i5 p hp).1.1

/-- C4 witness: an unrelated directory `keep` and its 7-byte file
`keep/data.txt` survive the run untouched, and a listed path is rewritten
to an empty file. -/
theorem run_frame_witness :
    run fsFrame = some fsFrameRun ∧
    (["keep"] ∈ fsFrame.dirs → ["keep"] ∈ fsFrameRun.dirs) ∧
    (["keep"] ∈ fsFrameRun.dirs → ["keep"] ∈ fsFrame.dirs ∨
      estructura.any
        (fun p => decide (["keep"] ∈ ancPrefixes ((splitPath p).dropLast))) = true) ∧
    (estructura.all (fun p => decide (splitPath p ≠ ["keep", "data.txt"])) = true →
      lookupFile fsFrameRun.files ["keep", "data.txt"] =
        lookupFile fsFrame.files ["keep", "data.txt"]) ∧
    (estructura.any (fun p => decide (splitPath p = ["keep", "data.txt"])) = true →
      lookupFile fsFrameRun.files ["keep", "data.txt"] = some 0) :=
  ⟨by decide, run_frame fsFrame fsFrameRun ["keep"] ["keep", "data.txt"] (by decide)⟩

end SetupPy

namespace SetupPy

theorem keys_setFile_congr {l1 l2 : List (Path × Nat)}
    (h : l1.map Prod.fst = l2.map Prod.fst) (p : Path) :
    (setFile l1 p).map Prod.fst = (setFile l2 p).map Prod.fst := by
  rw [keys_setFile, keys_setFile, h]

theorem foldl_mkdirOne_shape : ∀ (qs : List Path) (fs1 fs2 : FS),
    shapeOf fs1 = shapeOf fs2 →
    (qs.foldl mkdirOne (some fs1)).map shapeOf =
      (qs.foldl mkdirOne (some fs2)).map shapeOf := by
  intro qs
  induction qs with
  | nil => intro fs1 fs2 h; simpa using h
  | cons q t ih =>
    intro fs1 fs2 h
    have hd : fs1.dirs = fs2.dirs := congrArg Prod.fst h
    have hk : fileKeys fs1 = fileKeys fs2 := congrArg Prod.snd h
    have hf : isFile fs1 q = isFile fs2 q := by unfold isFile; rw [hk]
    simp only [List.foldl_cons]
    cases hf1 : isFile fs1 q with
    | true =>
      have hf2 : isFile fs2 q = true := by rw [← hf, hf1]
      rw [show mkdirOne (some fs1) q = none by simp [mkdirOne, hf1],
        show mkdirOne (some fs2) q = none by simp [mkdirOne, hf2],
        foldl_mkdirOne_none]
    | false =>
      have hf2 : isFile fs2 q = false := by rw [← hf, hf1]
      by_cases hdq : q ∈ fs1.dirs
      · have hdq2 : q ∈ fs2.dirs := hd ▸ hdq
        rw [show mkdirOne (some fs1) q = some fs1 by simp [mkdirOne, hf1, hdq],
          show mkdirOne (some fs2) q = some fs2 by simp [mkdirOne, hf2, hdq2]]
        exact ih fs1 fs2 h
      · have hdq2 : q ∉ fs2.dirs := hd ▸ hdq
        rw [show mkdirOne (some fs1) q = some { fs1 with dirs := fs1.dirs ++ [q] } by
              simp [mkdirOne, hf1, hdq],
          show mkdirOne (some fs2) q = some { fs2 with dirs := fs2.dirs ++ [q] } by
              simp [mkdirOne, hf2, hdq2]]
        refine ih _ _ ?_
        show (fs1.dirs ++ [q], fileKeys fs1) = (fs2.dirs ++ [q], fileKeys fs2)
        rw [hd, hk]

theorem openW_shape (fs1 fs2 : FS) (p : Path) (h : shapeOf fs1 = shapeOf fs2) :
    (openW fs1 p).map shapeOf = (openW fs2 p).map shapeOf := by
  have hd : fs1.dirs = fs2.dirs := congrArg Prod.fst h
  have hk : fileKeys fs1 = fileKeys fs2 := congrArg Prod.snd h
  unfold openW
  by_cases h1 : p ∈ fs1.dirs
  · rw [if_pos h1, if_pos (hd ▸ h1 : p ∈ fs2.dirs)]
  · rw [if_neg h1, if_neg (hd ▸ h1 : p ∉ fs2.dirs)]
    by_cases h2 : p.dropLast ≠ [] ∧ p.dropLast ∉ fs1.dirs
    · rw [if_pos h2, if_pos (show p.dropLast ≠ [] ∧ p.dropLast ∉ fs2.dirs from
        ⟨h2.1, hd ▸ h2.2⟩)]
    · have h2' : ¬ (p.dropLast ≠ [] ∧ p.dropLast ∉ fs2.dirs) := by
        intro hca
        exact h2 ⟨hca.1, hd ▸ hca.2⟩
      rw [if_neg h2, if_neg h2']
      show some (fs1.dirs, (setFile fs1.files p).map Prod.fst) =
        some (fs2.dirs, (setFile fs2.files p).map Prod.fst)
      rw [hd, keys_setFile_congr hk]

theorem step_shape (fs1 fs2 : FS) (p : String) (h : shapeOf fs1 = shapeOf fs2) :
    (step fs1 p).map shapeOf = (step fs2 p).map shapeOf := by
  have hd : fs1.dirs = fs2.dirs := congrArg Prod.fst h
  have hk : fileKeys fs1 = fileKeys fs2 := congrArg Prod.snd h
  have hpe : pathExists fs1 ((splitPath p).dropLast) =
      pathExists fs2 ((splitPath p).dropLast) := by
    unfold pathExists isDir isFile
    rw [hd, hk]
  have hrest : ∀ g1 g2 : Option FS, g1.map shapeOf = g2.map shapeOf →
      (match g1 with
        | none => none
        | some fs' =>
          if endsWithSlash p = false then openW fs' (splitPath p)
          else some fs').map shapeOf =
      (match g2 with
        | none => none
        | some fs' =>
          if endsWithSlash p = false then openW fs' (splitPath p)
          else some fs').map shapeOf := by
    intro g1 g2 hg
    cases g1 with
    | none =>
      cases g2 with
      | none => rfl
      | some b => exact absurd hg (by simp)
    | some a =>
      cases g2 with
      | none => exact absurd hg (by simp)
      | some b =>
        have hab : shapeOf a = shapeOf b := by
          simpa using hg
        by_cases hsl : endsWithSlash p = false
        · rw [show (match some a with
                | none => (none : Option FS)
                | some fs' =>
                  if endsWithSlash p = false then openW fs' (splitPath p)
                  else some fs') = openW a (splitPath p) by simp [hsl],
            show (match some b with
                | none => (none : Option FS)
                | some fs' =>
                  if endsWithSlash p = false then openW fs' (splitPath p)
                  else some fs') = openW b (splitPath p) by simp [hsl]]
          exact openW_shape a b (splitPath p) hab
        · rw [show (match some a with
                | none => (none : Option FS)
                | some fs' =>
                  if endsWithSlash p = false then openW fs' (splitPath p)
                  else some fs') = some a by simp [hsl],
            show (match some b with
                | none => (none : Option FS)
                | some fs' =>
                  if endsWithSlash p = false then openW fs' (splitPath p)
                  else some fs') = some b by simp [hsl]]
          simpa using hab
  by_cases hc : (splitPath p).dropLast ≠ [] ∧
      pathExists fs1 ((splitPath p).dropLast) = false
  · have hc2 : (splitPath p).dropLast ≠ [] ∧
        pathExists fs2 ((splitPath p).dropLast) = false := ⟨hc.1, hpe ▸ hc.2⟩
    have e1 : step fs1 p = (match (if ((splitPath p).dropLast ≠ [] ∧
          pathExists fs1 ((splitPath p).dropLast) = false) then
          makedirs fs1 ((splitPath p).dropLast) else some fs1) with
        | none => none
        | some fs' =>
          if endsWithSlash p = false then openW fs' (splitPath p) else some fs') := rfl
    have e2 : step fs2 p = (match (if ((splitPath p).dropLast ≠ [] ∧
          pathExists fs2 ((splitPath p).dropLast) = false) then
          makedirs fs2 ((splitPath p).dropLast) else some fs2) with
        | none => none
        | some fs' =>
          if endsWithSlash p = false then openW fs' (splitPath p) else some fs') := rfl
    rw [e1, e2, if_pos hc, if_pos hc2]
    exact hrest _ _ (foldl_mkdirOne_shape _ fs1 fs2 h)
  · have hc2 : ¬ ((splitPath p).dropLast ≠ [] ∧
        pathExists fs2 ((splitPath p).dropLast) = false) := by
      intro hca
      exact hc ⟨hca.1, hpe ▸ hca.2⟩
    have e1 : step fs1 p = (match (if ((splitPath p).dropLast ≠ [] ∧
          pathExists fs1 ((splitPath p).dropLast) = false) then
          makedirs fs1 ((splitPath p).dropLast) else some fs1) with
        | none => none
        | some fs' =>
          if endsWithSlash p = false then openW fs' (splitPath p) else some fs') := rfl
    have e2 : step fs2 p = (match (if ((splitPath p).dropLast ≠ [] ∧
          pathExists fs2 ((splitPath p).dropLast) = false) then
          makedirs fs2 ((splitPath p).dropLast) else some fs2) with
        | none => none
        | some fs' =>
          if endsWithSlash p = false then openW fs' (splitPath p) else some fs') := rfl
    rw [e1, e2, if_neg hc, if_neg hc2]
    exact hrest (some fs1) (some fs2) (by simp [h])

theorem runFrom_shape : ∀ (paths : List String) (fs1 fs2 : FS),
    shapeOf fs1 = shapeOf fs2 →
    (runFrom (some fs1) paths).map shapeOf = (runFrom (some fs2) paths).map shapeOf := by
  intro paths
  induction paths with
  | nil =>
    intro fs1 fs2 h
    show Option.map shapeOf (some fs1) = Option.map shapeOf (some fs2)
    simp [h]
  | cons p rest ih =>
    intro fs1 fs2 h
    rw [show runFrom (some fs1) (p :: rest) = runFrom (step fs1 p) rest from rfl,
      show runFrom (some fs2) (p :: rest) = runFrom (step fs2 p) rest from rfl]
    have hs := step_shape fs1 fs2 p h
    cases h1 : step fs1 p with
    | none =>
      cases h2 : step fs2 p with
      | none => rw [runFrom_none]
      | some b => rw [h1, h2] at hs; exact absurd hs (by simp)
    | some a =>
      cases h2 : step fs2 p with
      | none => rw [h1, h2] at hs; exact absurd hs (by simp)
      | some b =>
        rw [h1, h2] at hs
        exact ih a b (by simpa using hs)

/-- C5: the script reads no input.  Two initial filesystems with the same
shape (same directories and file names, arbitrary file contents) drive
the run identically: same success/failure, same resulting shape, and the
same standard output.  The embedding takes no arguments, environment, or
network input, so determinism on equal initial states is definitional. -/
theorem run_independent_of_content (fs1 fs2 : FS) (h : shapeOf fs1 = shapeOf fs2) :
    (run fs1).map shapeOf = (run fs2).map shapeOf ∧ output fs1 = output fs2 := by
  have hr : (run fs1).map shapeOf = (run fs2).map shapeOf :=
    runFrom_shape estructura fs1 fs2 h
  refine ⟨hr, ?_⟩
  unfold output
  cases h1 : run fs1 with
  | none =>
    cases h2 : run fs2 with
    | none => rfl
    | some b => rw [h1, h2] at hr; exact absurd hr (by simp)
  | some a =>
    cases h2 : run fs2 with
    | none => rw [h1, h2] at hr; exact absurd hr (by simp)
    | some b => rfl

/-- C5 witness: two initial filesystems differing only in the content
size of `README.md` produce identically-shaped results and the same
output line. -/
theorem run_independent_of_content_witness :
    shapeOf fsPre = shapeOf fsPre9 ∧
    (run fsPre).map shapeOf = (run fsPre9).map shapeOf ∧
    output fsPre = output fsPre9 :=
  ⟨by decide, run_independent_of_content fsPre fsPre9 (by decide)⟩

end SetupPy

namespace SetupPy

/-- C3 counterexample to the stated count: the truncation claim speaks of
48 listed paths, but `estructura` has a different length. -/
theorem estructura_count_ne_48 : estructura.length ≠ 48 := by decide

/-- C4 counterexample to the stated count: the frame claim speaks of 48
listed paths, but `estructura` lists 45. -/
theorem estructura_length_eq_45 : estructura.length = 45 ∧ estructura.length ≠ 48 := by
  decide

end SetupPy

namespace Engine

theorem processCore_fst_status (schema : List FieldDef) (extract : String → Extraction)
    (confTh inactTh : Nat) (s : ConvState) (m : InMsg) :
    (processCore schema extract confTh inactTh s m).1.status =
      (check schema inactTh m.timestamp (trackerState schema extract confTh s m)).1 := rfl

theorem processCore_fst_fields (schema : List FieldDef) (extract : String → Extraction)
    (confTh inactTh : Nat) (s : ConvState) (m : InMsg) :
    (processCore schema extract confTh inactTh s m).1.collectedFields =
      (trackerState schema extract confTh s m).collectedFields := rfl

theorem processCore_fst_completedAt (schema : List FieldDef) (extract : String → Extraction)
    (confTh inactTh : Nat) (s : ConvState) (m : InMsg) :
    (processCore schema extract confTh inactTh s m).1.completedAt =
      (if decide ((check schema inactTh m.timestamp
            (trackerState schema extract confTh s m)).1 = Status.completed) &&
          s.completedAt.isNone
        then some m.timestamp else s.completedAt) := rfl

theorem processCore_dispatch (schema : List FieldDef) (extract : String → Extraction)
    (confTh inactTh : Nat) (s : ConvState) (m : InMsg) :
    (processCore schema extract confTh inactTh s m).2.2 =
      (decide ((check schema inactTh m.timestamp
          (trackerState schema extract confTh s m)).1 = Status.completed) &&
        s.completedAt.isNone) := rfl

theorem check_completed_iff (schema : List FieldDef) (inactTh now : Nat)
    (t : ConvState) :
    (check schema inactTh now t).1 = Status.completed ↔
      requiredSatisfied schema t.collectedFields = true := by
  unfold check
  cases hreq : requiredSatisfied schema t.collectedFields with
  | true => simp [hreq]
  | false =>
    simp only [hreq, Bool.false_eq_true, if_false]
    by_cases h2 : inactTh < now - t.lastActivityAt ∧ t.status ≠ Status.completed
    · simp [h2]
    · rw [if_neg h2]
      by_cases h3 : t.clarificationPending
      · simp [h3]
      · simp [h3]

theorem processMessage_cases (schema : List FieldDef) (extract : String → Extraction)
    (confTh inactTh : Nat) (s : ConvState) (m : InMsg) :
    (processMessage schema extract confTh inactTh s m = (s, [], false)) ∨
    ((processMessage schema extract confTh inactTh s m).1.status = s.status ∧
      (processMessage schema extract confTh inactTh s m).1.collectedFields =
        s.collectedFields ∧
      (processMessage schema extract confTh inactTh s m).1.completedAt = s.completedAt ∧
      (processMessage schema extract confTh inactTh s m).2.2 = false) ∨
    (s.status ≠ Status.completed ∧ s.status ≠ Status.abandoned ∧
      processMessage schema extract confTh inactTh s m =
        processCore schema extract confTh inactTh s m) := by
  unfold processMessage
  by_cases h1 : m.messageId ∈ inboundIds s.messageLog
  · rw [if_pos h1]
    exact Or.inl rfl
  · rw [if_neg h1]
    by_cases h2 : s.status = Status.completed ∨ s.status = Status.abandoned
    · rw [if_pos h2]
      exact Or.inr (Or.inl ⟨rfl, rfl, rfl, rfl⟩)
    · rw [if_neg h2]
      push_neg at h2
      exact Or.inr (Or.inr ⟨h2.1, h2.2, rfl⟩)

/-- C6: for every reachable Conversation State, `status = completed`
implies every required Field Definition has a satisfied Collected Field
Value, and the Completion Checker returns completed exactly when that
condition holds. -/
theorem completed_requires_all_fields (schema : List FieldDef)
    (confTh inactTh now : Nat) (s t : ConvState)
    (hr : Reachable schema confTh inactTh s) :
    (s.status = Status.completed →
      requiredSatisfied schema s.collectedFields = true) ∧
    ((check schema inactTh now t).1 = Status.completed ↔
      requiredSatisfied schema t.collectedFields = true) := by
  refine ⟨?_, check_completed_iff schema inactTh now t⟩
  induction hr with
  | init n =>
    intro h
    exact absurd h (by simp [initState])
  | deliver extract m s0 hr0 ih =>
    rcases processMessage_cases schema extract confTh inactTh s0 m with
      heq | ⟨hst, hcf, _, _⟩ | ⟨_, _, heq⟩
    · rw [heq]
      exact ih
    · intro h
      rw [hst] at h
      rw [hcf]
      exact ih h
    · rw [heq, processCore_fst_status, processCore_fst_fields]
      intro h
      exact (check_completed_iff schema inactTh m.timestamp _).mp h
  | timeout n s0 hr0 ih =>
    unfold sweep
    by_cases hc : (s0.status = Status.active ∨
        s0.status = Status.awaitingClarification) ∧ inactTh < n - s0.lastActivityAt
    · rw [if_pos hc]
      intro h
      exact absurd h (by simp)
    · rw [if_neg hc]
      exact ih

/-- C6 witness: the fresh initial state is reachable; its status is not
completed, and the checker agrees with `requiredSatisfied` on it. -/
theorem completed_requires_all_fields_witness :
    ((initState 0).status = Status.completed →
      requiredSatisfied schemaNB (initState 0).collectedFields = true) ∧
    ((check schemaNB 100 0 (initState 0)).1 = Status.completed ↔
      requiredSatisfied schemaNB (initState 0).collectedFields = true) :=
  completed_requires_all_fields schemaNB 70 100 0 (initState 0) (initState 0)
    (Reachable.init 0)

end Engine

namespace Engine

/-- C7: per-messageId idempotence — delivering a message whose
`messageId` already appears in the state's message log is a no-op: the
state (hence `collectedFields`, `pendingFieldKey`, `status`, and
`messageLog`) is unchanged, no outbound message is produced, and no
dispatch fires. -/
theorem duplicate_delivery_noop (schema : List FieldDef) (extract : String → Extraction)
    (confTh inactTh : Nat) (s : ConvState) (m : InMsg)
    (hdup : m.messageId ∈ inboundIds s.messageLog) :
    processMessage schema extract confTh inactTh s m = (s, [], false) := by
  unfold processMessage
  rw [if_pos hdup]

/-- C7 witness: redelivering messageId `m1` to a state that already
logged it changes nothing and emits nothing. -/
theorem duplicate_delivery_noop_witness :
    msgDup.messageId ∈ inboundIds loggedState.messageLog ∧
    processMessage schemaNB extractNone 70 100 loggedState msgDup =
      (loggedState, [], false) :=
  ⟨by decide,
    duplicate_delivery_noop schemaNB extractNone 70 100 loggedState msgDup (by decide)⟩

theorem processMessage_flag (schema : List FieldDef) (extract : String → Extraction)
    (confTh inactTh : Nat) (s : ConvState) (m : InMsg)
    (hinv : s.status = Status.completed ↔ s.completedAt.isSome = true) :
    ((processMessage schema extract confTh inactTh s m).1.status = Status.completed ↔
      (processMessage schema extract confTh inactTh s m).1.completedAt.isSome = true) ∧
    ((processMessage schema extract confTh inactTh s m).2.2 = true ↔
      (s.completedAt = none ∧
        (processMessage schema extract confTh inactTh s m).1.completedAt.isSome =
          true)) ∧
    (s.completedAt.isSome = true →
      (processMessage schema extract confTh inactTh s m).1.completedAt =
        s.completedAt) := by
  rcases processMessage_cases schema extract confTh inactTh s m with
    heq | ⟨hst, _, hca, hdp⟩ | ⟨hne, _, heq⟩
  · rw [heq]
    refine ⟨hinv, ?_, fun _ => rfl⟩
    constructor
    · intro h
      exact absurd h (by simp)
    · rintro ⟨h1, h2⟩
      rw [h1] at h2
      exact absurd h2 (by simp)
  · rw [hst, hca, hdp]
    refine ⟨hinv, ?_, fun _ => rfl⟩
    constructor
    · intro h
      exact absurd h (by simp)
    · rintro ⟨h1, h2⟩
      rw [h1] at h2
      exact absurd h2 (by simp)
  · have hnone : s.completedAt = none := by
      cases hca : s.completedAt with
      | none => rfl
      | some x =>
        have : s.status = Status.completed := hinv.mpr (by rw [hca]; rfl)
        exact absurd this hne
    rw [heq, processCore_fst_status, processCore_fst_completedAt,
      processCore_dispatch, hnone]
    by_cases hco : (check schema inactTh m.timestamp
        (trackerState schema extract confTh s m)).1 = Status.completed
    · simp [hco]
    · simp [hco]

theorem runDeliveries_count (schema : List FieldDef) (confTh inactTh : Nat) :
    ∀ (ds : List ((String → Extraction) × InMsg)) (s : ConvState) (c : Nat),
    (s.status = Status.completed ↔ s.completedAt.isSome = true) →
    ((runDeliveries schema confTh inactTh ds s c).1.status = Status.completed ↔
      (runDeliveries schema confTh inactTh ds s c).1.completedAt.isSome = true) ∧
    (runDeliveries schema confTh inactTh ds s c).2 =
      c + (if s.completedAt = none ∧
          (runDeliveries schema confTh inactTh ds s c).1.completedAt.isSome = true
        then 1 else 0) ∧
    (s.completedAt.isSome = true →
      (runDeliveries schema confTh inactTh ds s c).1.completedAt = s.completedAt) := by
  intro ds
  induction ds with
  | nil =>
    intro s c hinv
    refine ⟨hinv, ?_, fun _ => rfl⟩
    show c = c + (if s.completedAt = none ∧ s.completedAt.isSome = true then 1 else 0)
    cases hca : s.completedAt with
    | none => simp
    | some x => simp
  | cons d rest ih =>
    intro s c hinv
    obtain ⟨p1, p2, p3⟩ := processMessage_flag schema d.1 confTh inactTh s d.2 hinv
    have hre : runDeliveries schema confTh inactTh (d :: rest) s c =
        runDeliveries schema confTh inactTh rest
          (processMessage schema d.1 confTh inactTh s d.2).1
          (c + (if (processMessage schema d.1 confTh inactTh s d.2).2.2
            then 1 else 0)) := rfl
    rw [hre]
    generalize hP : processMessage schema d.1 confTh inactTh s d.2 = P at p1 p2 p3 ⊢
    generalize hc1 : c + (if P.2.2 then 1 else 0) = c1
    obtain ⟨q1, q2, q3⟩ := ih P.1 c1 p1
    refine ⟨q1, ?_, ?_⟩
    · cases hca : s.completedAt with
      | some x =>
        rw [hca] at p2 p3
        have hs1 : P.1.completedAt = some x := p3 rfl
        have hb : P.2.2 = false := by
          cases hb0 : P.2.2 with
          | false => rfl
          | true => exact absurd (p2.mp hb0).1 (by simp)
        have hc1v : c1 = c := by rw [← hc1, hb]; simp
        rw [q2, hs1, hc1v]
      | none =>
        rw [hca] at p2
        cases hb0 : P.2.2 with
        | true =>
          have hs1 : P.1.completedAt.isSome = true := (p2.mp hb0).2
          obtain ⟨y, hy⟩ := Option.isSome_iff_exists.mp hs1
          have hfin : (runDeliveries schema confTh inactTh rest P.1 c1).1.completedAt =
              some y := by
            rw [q3 hs1, hy]
          have hc1v : c1 = c + 1 := by rw [← hc1, hb0]; simp
          rw [q2, hy, hfin, hc1v]
          simp
        | false =>
          have hs1 : P.1.completedAt = none := by
            cases hq : P.1.completedAt with
            | none => rfl
            | some y =>
              exact absurd (p2.mpr ⟨rfl, by rw [hq]; rfl⟩) (by rw [hb0]; simp)
          have hc1v : c1 = c := by rw [← hc1, hb0]; simp
          rw [q2, hs1, hc1v]
    · intro hsome
      have hs1 : P.1.completedAt = s.completedAt := p3 hsome
      rw [q3 (by rw [hs1]; exact hsome), hs1]

/-- C8: at-most-once completion dispatch.  Over any delivery sequence
against a fresh conversation (duplicates and redeliveries included), the
downstream record sink's `submit` trigger fires exactly once when the
final status is completed and never otherwise, guaranteed by the one-way
`completedAt` flag written together with the completed transition. -/
theorem at_most_once_dispatch (schema : List FieldDef) (confTh inactTh now : Nat)
    (ds : List ((String → Extraction) × InMsg)) :
    (runDeliveries schema confTh inactTh ds (initState now) 0).2 =
      (if (runDeliveries schema confTh inactTh ds (initState now) 0).1.status =
          Status.completed then 1 else 0) := by
  obtain ⟨h1, h2, _⟩ :=
    runDeliveries_count schema confTh inactTh ds (initState now) 0
      (by simp [initState])
  rw [h2]
  have hnone : (initState now).completedAt = none := rfl
  rw [hnone]
  by_cases hf : (runDeliveries schema confTh inactTh ds
      (initState now) 0).1.completedAt.isSome = true
  · rw [if_pos ⟨rfl, hf⟩, if_pos (h1.mpr hf)]
  · rw [if_neg (fun hand => hf hand.2), if_neg (fun hc => hf (h1.mp hc))]

end Engine

namespace Engine

theorem mem_of_head?_filter {α : Type} (p : α → Bool) (l : List α) (g : α)
    (h : (l.filter p).head? = some g) : g ∈ l ∧ p g = true := by
  have hg : g ∈ l.filter p := by
    cases hf : l.filter p with
    | nil => rw [hf] at h; exact absurd h (by simp)
    | cons a t =>
      rw [hf] at h
      have ha : a = g := by simpa using h
      rw [← ha]
      exact List.mem_cons_self a t
  have hm := List.mem_filter.mp hg
  exact ⟨hm.1, hm.2⟩

/-- C9: dependency ordering.  Whenever the Field Tracker's `update`
selects some `pendingFieldKey`, the selected Field Definition is
required, still unsatisfied, and has all of its `dependsOn` fields
satisfied in the updated field set; moreover the selected key is exactly
the head of the eligible entries of the declaration-ordered list of
unsatisfied required fields. -/
theorem dependency_ordering (schema : List FieldDef) (extract : String → Extraction)
    (confTh : Nat) (cf : List (String × CollectedValue)) (pending : Option String)
    (raw : String) (f : FieldDef) (k : String)
    (hnd : (schema.map (fun g => g.key)).Nodup)
    (hk : (update schema extract confTh cf pending raw).2.1 = some k)
    (hf : f ∈ schema) (hkey : f.key = k) :
    f.required = true ∧
    satisfiedAt (update schema extract confTh cf pending raw).1 f.key = false ∧
    eligible (update schema extract confTh cf pending raw).1 f = true ∧
    (update schema extract confTh cf pending raw).2.1 =
      (((stillPending schema (update schema extract confTh cf pending raw).1).filter
        (fun g => eligible (update schema extract confTh cf pending raw).1 g)).head?).map
        (fun g => g.key) := by
  have hsel : (update schema extract confTh cf pending raw).2.1 =
      selectPending schema (update schema extract confTh cf pending raw).1 := rfl
  rw [hsel] at hk
  unfold selectPending at hk
  obtain ⟨g, hg, hgk⟩ := Option.map_eq_some'.mp hk
  obtain ⟨hgmem, hgelig⟩ := mem_of_head?_filter _ _ _ hg
  unfold stillPending at hgmem
  have hgs := List.mem_filter.mp hgmem
  have hfg : f = g := by
    apply List.inj_on_of_nodup_map hnd hf hgs.1
    show f.key = g.key
    rw [hkey, hgk]
  have h2 : g.required = true ∧
      satisfiedAt (update schema extract confTh cf pending raw).1 g.key = false := by
    simpa using hgs.2
  refine ⟨?_, ?_, ?_, hsel.trans rfl⟩
  · rw [hfg]; exact h2.1
  · rw [hfg]; exact h2.2
  · rw [hfg]; exact hgelig

/-- C9 witness: on the two-field example schema with nothing collected,
the tracker selects `name` (and not `budget`, whose dependency is
unsatisfied); `name` is required, unsatisfied, and dependency-free. -/
theorem dependency_ordering_witness :
    (schemaNB.map (fun g => g.key)).Nodup ∧
    (update schemaNB extractNone 70 [] none "Hi").2.1 = some "name" ∧
    nameField ∈ schemaNB ∧ nameField.key = "name" ∧
    (nameField.required = true ∧
      satisfiedAt (update schemaNB extractNone 70 [] none "Hi").1 nameField.key =
        false ∧
      eligible (update schemaNB extractNone 70 [] none "Hi").1 nameField = true ∧
      (update schemaNB extractNone 70 [] none "Hi").2.1 =
        (((stillPending schemaNB
            (update schemaNB extractNone 70 [] none "Hi").1).filter
          (fun g =>
            eligible (update schemaNB extractNone 70 [] none "Hi").1 g)).head?).map
          (fun g => g.key)) :=
  ⟨by decide, rfl, List.mem_cons_self _ _, rfl,
    dependency_ordering schemaNB extractNone 70 [] none "Hi" nameField "name"
      (by decide) rfl (List.mem_cons_self _ _) rfl⟩

theorem setStatus_collectedFields (s : ConvState) (st : Status) :
    ({ s with status := st } : ConvState).collectedFields = s.collectedFields := rfl

theorem setStatus_lastActivityAt (s : ConvState) (st : Status) :
    ({ s with status := st } : ConvState).lastActivityAt = s.lastActivityAt := rfl

theorem setStatus_clarificationPending (s : ConvState) (st : Status) :
    ({ s with status := st } : ConvState).clarificationPending =
      s.clarificationPending := rfl

theorem setStatus_status (s : ConvState) (st : Status) :
    ({ s with status := st } : ConvState).status = st := rfl

/-- C10: the Completion Checker is a pure, deterministic function of its
argument — in the embedding `check` is a function, so two calls on equal
states agree definitionally — and it is idempotent: re-running `check`
on the state whose status was updated with the checker's own verdict
returns the same (status, reason) pair.  The hypothesis is the C6 state
invariant, which every reachable state satisfies. -/
theorem check_idempotent (schema : List FieldDef) (inactTh now : Nat) (s : ConvState)
    (hinv : s.status = Status.completed →
      requiredSatisfied schema s.collectedFields = true) :
    check schema inactTh now { s with status := (check schema inactTh now s).1 } =
      check schema inactTh now s := by
  unfold check
  rw [setStatus_collectedFields, setStatus_lastActivityAt,
    setStatus_clarificationPending, setStatus_status]
  cases hreq : requiredSatisfied schema s.collectedFields with
  | true => simp [hreq]
  | false =>
    by_cases hin : inactTh < now - s.lastActivityAt
    · by_cases hst : s.status = Status.completed
      · exact absurd (hinv hst) (by rw [hreq]; simp)
      · simp [hreq, hin, hst]
    · simp [hreq, hin]

/-- C10 witness: on a concrete active state the re-checked verdict
equals the original verdict. -/
theorem check_idempotent_witness :
    (loggedState.status = Status.completed →
      requiredSatisfied schemaNB loggedState.collectedFields = true) ∧
    check schemaNB 100 50 { loggedState with
        status := (check schemaNB 100 50 loggedState).1 } =
      check schemaNB 100 50 loggedState :=
  ⟨by decide, check_idempotent schemaNB 100 50 loggedState (by decide)⟩

end Engine
